import Mathlib

/-!
Shallow embedding of the persistent key-value store (main.go).

Keys and values are raw byte sequences, modelled as lists of naturals.
Go maps (`map[string][]byte`, `map[string]bool`) are modelled as
association lists with unique keys; Go map indexing returns the zero
value when the key is absent (`nil` for byte slices, `false` for bools).
The WAL file is modelled as the list of records it holds (the JSON line
codec is abstracted away), and the set of visible on-disk tables as a
list of table files, newest first (a successful flush prepends).
File-system failure of the table write during a flush is modelled by
the `flushOK` parameter of `Set`.
-/

namespace KVS

abbrev Bytes := List Nat

/-- ASCII bytes of the sentinel string "DELETED" that SearchSSTFile returns
for an entry whose operation marker denotes a tombstone. -/
def DELETEDSentinel : Bytes := [68, 69, 76, 69, 84, 69, 68]

/-- Go map lookup, `v, ok := m[key]` with `ok` as `Option.isSome`. -/
def lookupA {α : Type} : List (Bytes × α) → Bytes → Option α
  | [], _ => none
  | (k, v) :: rest, key => if k = key then some v else lookupA rest key

/-- Membership of a key in a Go map. -/
def containsKey {α : Type} (l : List (Bytes × α)) (key : Bytes) : Bool :=
  (lookupA l key).isSome

/-- Go `m[key]` on a `map[string]bool`: `false` when the key is absent. -/
def lookupBool (l : List (Bytes × Bool)) (key : Bytes) : Bool :=
  (lookupA l key).getD false

/-- Go `m[key] = v`: replace the binding if present, otherwise add it. -/
def setA {α : Type} : List (Bytes × α) → Bytes → α → List (Bytes × α)
  | [], key, v => [(key, v)]
  | (k, w) :: rest, key, v =>
    if k = key then (key, v) :: rest else (k, w) :: setA rest key v

/-- Go `delete(m, key)`. -/
def eraseA {α : Type} : List (Bytes × α) → Bytes → List (Bytes × α)
  | [], _ => []
  | (k, w) :: rest, key => if k = key then rest else (k, w) :: eraseA rest key

/-- Operation field of a WAL record. -/
inductive WalOp : Type
  | set : WalOp
  | delete : WalOp
deriving DecidableEq

/-- One WAL record: `{"operation": ..., "key": ..., "value": ...}`. -/
structure WalRecord : Type where
  op : WalOp
  key : Bytes
  value : Bytes
deriving DecidableEq

def walSet (key value : Bytes) : WalRecord := ⟨WalOp.set, key, value⟩

def walDelete (key value : Bytes) : WalRecord := ⟨WalOp.delete, key, value⟩

/-- One on-disk table entry: operation marker (0 = live, 1 = tombstone),
key bytes and value bytes (the two length fields are determined by the
byte sequences themselves). -/
structure SSTEntry : Type where
  marker : Nat
  key : Bytes
  value : Bytes
deriving DecidableEq

/-- An on-disk table file: header fields after the magic marker, then the
entries in file order.  Files written by this engine always carry the
valid magic marker, so the magic is not modelled. -/
structure SSTFile : Type where
  entryCount : Nat
  smallestKeyLength : Nat
  largestKeyLength : Nat
  entries : List SSTEntry
deriving DecidableEq

/-- The engine state: the live mapping `data`, the tombstone map
`DeletedKeys`, the process-lifetime key-length trackers, the WAL contents
and the visible on-disk tables (newest first). -/
structure KeyValueStore : Type where
  data : List (Bytes × Bytes)
  DeletedKeys : List (Bytes × Bool)
  smallestKeyLength : Nat
  largestKeyLength : Nat
  wal : List WalRecord
  sstables : List SSTFile
deriving DecidableEq

/-- Go string comparison on raw bytes (lexicographic), as used by
`sort.Strings`. -/
def lexLe : Bytes → Bytes → Bool
  | [], _ => true
  | _ :: _, [] => false
  | a :: as, b :: bs => if a < b then true else if b < a then false else lexLe as bs

/-- Insert into a lexicographically sorted list of keys. -/
def insortLe (x : Bytes) : List Bytes → List Bytes
  | [] => [x]
  | y :: ys => if lexLe x y then x :: y :: ys else y :: insortLe x ys

/-- The effect of `sort.Strings`: sort keys in ascending lexicographic
order (insertion sort; the result is determined by the multiset). -/
def sortKeys : List Bytes → List Bytes
  | [] => []
  | x :: xs => insortLe x (sortKeys xs)

/-- The key list WriteSSTable iterates over: the keys of the live mapping
followed by the keys of the tombstone map, sorted. -/
def flushKeys (kv : KeyValueStore) : List Bytes :=
  sortKeys (kv.data.map Prod.fst ++ kv.DeletedKeys.map Prod.fst)

/-- The entry WriteSSTable emits for one key: marker 1 when the key is
tombstoned, else 0; the value is `kv.data[key]`, the empty byte sequence
when the key is absent from the live mapping (Go writes the nil slice as
a zero-length value). -/
def mkEntry (kv : KeyValueStore) (key : Bytes) : SSTEntry :=
  { marker := if lookupBool kv.DeletedKeys key then 1 else 0
  , key := key
  , value := (lookupA kv.data key).getD [] }

/-- The table file WriteSSTable produces from the current state. -/
def WriteSSTable (kv : KeyValueStore) : SSTFile :=
  { entryCount := (flushKeys kv).length
  , smallestKeyLength := kv.smallestKeyLength
  , largestKeyLength := kv.largestKeyLength
  , entries := (flushKeys kv).map (mkEntry kv) }

/-- The scan loop of SearchSSTFile: read `n` entries (the header count),
stopping at the first whose key matches.  A tombstone match yields the
"DELETED" sentinel with found = true; a live match yields the stored
value.  Running out of entries before the count is exhausted is the Go
read failure, reported as (nil, false). -/
def searchN (key : Bytes) : Nat → List SSTEntry → Option Bytes × Bool
  | 0, _ => (none, false)
  | _ + 1, [] => (none, false)
  | n + 1, e :: rest =>
    if e.key = key then
      if e.marker = 1 then (some DELETEDSentinel, true)
      else (some e.value, true)
    else searchN key n rest

/-- Search one table file for a key. -/
def SearchSSTFile (key : Bytes) (f : SSTFile) : Option Bytes × Bool :=
  searchN key f.entryCount f.entries

/-- Search all table files, newest first, stopping at the first file that
reports found = true. -/
def SearchSSTFiles (key : Bytes) : List SSTFile → Option Bytes × Bool
  | [] => (none, false)
  | f :: rest =>
    match SearchSSTFile key f with
    | (v, true) => (v, true)
    | (_, false) => SearchSSTFiles key rest

/-- Get: a tombstoned key reports (nil, false); otherwise a key present in
the live mapping reports its value; otherwise the on-disk tables are
searched. -/
def Get (kv : KeyValueStore) (key : Bytes) : Option Bytes × Bool :=
  if lookupBool kv.DeletedKeys key then (none, false)
  else
    match lookupA kv.data key with
    | some v => (some v, true)
    | none => SearchSSTFiles key kv.sstables

/-- Set: on a tombstoned key, only clear the tombstone flag and return.
Otherwise update the key-length trackers, append the record to the WAL,
store the value, and when the live mapping has reached 10 entries flush:
write the table file (`flushOK` models success of that write; on failure
nothing further happens), then clear the live mapping and the tombstone
map and truncate the WAL. -/
def Set (kv : KeyValueStore) (key value : Bytes) (flushOK : Bool) : KeyValueStore :=
  if lookupBool kv.DeletedKeys key then
    { kv with DeletedKeys := setA kv.DeletedKeys key false }
  else
    let keyLength := key.length
    let small :=
      if kv.smallestKeyLength = 0 ∨ keyLength < kv.smallestKeyLength then keyLength
      else kv.smallestKeyLength
    let large :=
      if kv.largestKeyLength < keyLength then keyLength else kv.largestKeyLength
    let kv1 : KeyValueStore :=
      { kv with smallestKeyLength := small
              , largestKeyLength := large
              , wal := kv.wal ++ [walSet key value]
              , data := setA kv.data key value }
    if 10 ≤ kv1.data.length then
      if flushOK then
        { kv1 with sstables := WriteSSTable kv1 :: kv1.sstables
                 , data := []
                 , DeletedKeys := []
                 , wal := [] }
      else kv1
    else kv1

/-- Delete: a key with a live value is removed from the live mapping after
logging; otherwise, if Get finds the key anywhere, it is marked tombstoned
after logging; otherwise nothing happens and (nil, false) is returned. -/
def Delete (kv : KeyValueStore) (key : Bytes) : (Option Bytes × Bool) × KeyValueStore :=
  match lookupA kv.data key with
  | some v =>
    ((some v, true),
     { kv with wal := kv.wal ++ [walDelete key v]
             , data := eraseA kv.data key })
  | none =>
    match Get kv key with
    | (v, true) =>
      ((v, true),
       { kv with wal := kv.wal ++ [walDelete key (v.getD [])]
               , DeletedKeys := setA kv.DeletedKeys key true })
    | (v, false) => ((v, false), kv)

/-- One iteration of the RecoverFromWAL loop: a "set" record is applied as
a raw insertion into the live mapping, a "delete" record as a raw
removal. -/
def recoverStep (kv : KeyValueStore) (r : WalRecord) : KeyValueStore :=
  match r.op with
  | WalOp.set => { kv with data := setA kv.data r.key r.value }
  | WalOp.delete => { kv with data := eraseA kv.data r.key }

/-- RecoverFromWAL replays the WAL records in file order. -/
def RecoverFromWAL (kv : KeyValueStore) : KeyValueStore :=
  kv.wal.foldl recoverStep kv

/-- The pure effect of one replayed record on the live mapping alone. -/
def replayRecord (d : List (Bytes × Bytes)) (r : WalRecord) : List (Bytes × Bytes) :=
  match r.op with
  | WalOp.set => setA d r.key r.value
  | WalOp.delete => eraseA d r.key

/-- An external engine call (flushes during Put taken as succeeding). -/
inductive Op : Type
  | put (key value : Bytes) : Op
  | del (key : Bytes) : Op
deriving DecidableEq

def applyOp (kv : KeyValueStore) : Op → KeyValueStore
  | Op.put k v => Set kv k v true
  | Op.del k => (Delete kv k).2

/-- The state NewKeyValueStore builds: everything empty. -/
def initStore : KeyValueStore :=
  { data := [], DeletedKeys := [], smallestKeyLength := 0, largestKeyLength := 0
  , wal := [], sstables := [] }

/-- Run a sequence of engine calls from the initial state. -/
def runOps (ops : List Op) : KeyValueStore := ops.foldl applyOp initStore

end KVS

namespace KVS

/-! ### Association-list lemmas -/

theorem lookupA_setA_self {α : Type} (l : List (Bytes × α)) (k : Bytes) (v : α) :
    lookupA (setA l k v) k = some v := by
  induction l with
  | nil => simp [setA, lookupA]
  | cons p rest ih =>
    obtain ⟨a, b⟩ := p
    by_cases h : a = k
    · simp [setA, h, lookupA]
    · simp [setA, h, lookupA, ih]

theorem lookupA_setA_ne {α : Type} (l : List (Bytes × α)) (k q : Bytes) (v : α)
    (h : q ≠ k) : lookupA (setA l k v) q = lookupA l q := by
  induction l with
  | nil => simp [setA, lookupA, Ne.symm h]
  | cons p rest ih =>
    obtain ⟨a, b⟩ := p
    by_cases ha : a = k
    · subst ha
      simp [setA, lookupA, Ne.symm h]
    · by_cases hq : a = q
      · simp [setA, lookupA, ha, hq, h]
      · simp [setA, lookupA, ha, hq, ih]

theorem length_setA_of_none {α : Type} (l : List (Bytes × α)) (k : Bytes) (v : α)
    (h : lookupA l k = none) : (setA l k v).length = l.length + 1 := by
  induction l with
  | nil => simp [setA]
  | cons p rest ih =>
    obtain ⟨a, b⟩ := p
    by_cases ha : a = k
    · simp [lookupA, ha] at h
    · simp [lookupA, ha] at h
      simp [setA, ha, ih h]

theorem mem_of_lookupA {α : Type} {l : List (Bytes × α)} {k : Bytes} {v : α}
    (h : lookupA l k = some v) : (k, v) ∈ l := by
  induction l with
  | nil => simp [lookupA] at h
  | cons p rest ih =>
    obtain ⟨a, b⟩ := p
    by_cases ha : a = k
    · subst ha
      simp [lookupA] at h
      subst h
      exact List.mem_cons_self _ _
    · simp [lookupA, ha] at h
      exact List.mem_cons_of_mem _ (ih h)

theorem mem_keys_of_lookupA {α : Type} {l : List (Bytes × α)} {k : Bytes} {v : α}
    (h : lookupA l k = some v) : k ∈ l.map Prod.fst :=
  List.mem_map_of_mem Prod.fst (mem_of_lookupA h)

theorem lookupBool_all_false {l : List (Bytes × Bool)}
    (h : ∀ p ∈ l, p.2 = false) (k : Bytes) : lookupBool l k = false := by
  unfold lookupBool
  cases hl : lookupA l k with
  | none => rfl
  | some b =>
    have hb : b = false := h (k, b) (mem_of_lookupA hl)
    simp [hb]

theorem all_false_setA {l : List (Bytes × Bool)}
    (h : ∀ p ∈ l, p.2 = false) (k : Bytes) :
    ∀ p ∈ setA l k false, p.2 = false := by
  induction l with
  | nil =>
    intro p hp
    simp [setA] at hp
    simp [hp]
  | cons q rest ih =>
    obtain ⟨a, b⟩ := q
    intro p hp
    by_cases ha : a = k
    · simp [setA, ha] at hp
      rcases hp with h1 | h1
      · simp [h1]
      · exact h p (List.mem_cons_of_mem _ h1)
    · simp [setA, ha] at hp
      rcases hp with h1 | h1
      · subst h1
        exact h (a, b) (List.mem_cons_self _ _)
      · exact ih (fun r hr => h r (List.mem_cons_of_mem _ hr)) p h1

theorem containsKey_eq_mem_keys {α : Type} (l : List (Bytes × α)) (k : Bytes) :
    containsKey l k = true ↔ k ∈ l.map Prod.fst := by
  induction l with
  | nil => simp [containsKey, lookupA]
  | cons p rest ih =>
    obtain ⟨a, b⟩ := p
    by_cases ha : a = k
    · subst ha
      simp [containsKey, lookupA]
    · simp [containsKey, lookupA, ha] at ih ⊢
      rw [ih]
      constructor
      · exact Or.inr
      · intro h1
        rcases h1 with h1 | h1
        · exact absurd h1.symm ha
        · exact h1

theorem mem_keys_setA {α : Type} {l : List (Bytes × α)} {k q : Bytes} {v : α}
    (h : q ∈ (setA l k v).map Prod.fst) : q = k ∨ q ∈ l.map Prod.fst := by
  by_cases hq : q = k
  · exact Or.inl hq
  · right
    rw [← containsKey_eq_mem_keys] at h ⊢
    unfold containsKey at h ⊢
    rwa [lookupA_setA_ne l k q v hq] at h

theorem nodup_keys_setA {α : Type} {l : List (Bytes × α)} (h : (l.map Prod.fst).Nodup)
    (k : Bytes) (v : α) : ((setA l k v).map Prod.fst).Nodup := by
  induction l with
  | nil => simp [setA]
  | cons p rest ih =>
    obtain ⟨a, b⟩ := p
    rw [List.map_cons, List.nodup_cons] at h
    by_cases ha : a = k
    · subst ha
      rw [show setA ((a, b) :: rest) a v = (a, v) :: rest from by simp [setA]]
      rw [List.map_cons, List.nodup_cons]
      exact h
    · rw [show setA ((a, b) :: rest) k v = (a, b) :: setA rest k v from by simp [setA, ha]]
      rw [List.map_cons, List.nodup_cons]
      refine ⟨?_, ih h.2⟩
      intro hmem
      rcases mem_keys_setA hmem with h1 | h1
      · exact ha h1
      · exact h.1 h1

theorem eraseA_sublist {α : Type} (l : List (Bytes × α)) (k : Bytes) :
    (eraseA l k).Sublist l := by
  induction l with
  | nil => simp [eraseA]
  | cons p rest ih =>
    obtain ⟨a, b⟩ := p
    by_cases ha : a = k
    · simp [eraseA, ha]
    · simpa [eraseA, ha] using ih.cons₂ (a, b)

theorem nodup_keys_eraseA {α : Type} {l : List (Bytes × α)} (h : (l.map Prod.fst).Nodup)
    (k : Bytes) : ((eraseA l k).map Prod.fst).Nodup :=
  h.sublist ((eraseA_sublist l k).map Prod.fst)

end KVS

namespace KVS

/-! ### Lexicographic order, sortedness and counting -/

theorem lexLe_total (a b : Bytes) : lexLe a b = true ∨ lexLe b a = true := by
  induction a generalizing b with
  | nil => exact Or.inl rfl
  | cons x xs ih =>
    cases b with
    | nil => exact Or.inr rfl
    | cons y ys =>
      rcases Nat.lt_trichotomy x y with h | h | h
      · exact Or.inl (by simp [lexLe, h])
      · subst h
        rcases ih ys with h2 | h2
        · exact Or.inl (by simp [lexLe, Nat.lt_irrefl, h2])
        · exact Or.inr (by simp [lexLe, Nat.lt_irrefl, h2])
      · exact Or.inr (by simp [lexLe, h])

/-- A key list is in ascending (non-strict) lexicographic order. -/
def sortedLe : List Bytes → Bool
  | [] => true
  | [_] => true
  | a :: b :: rest => lexLe a b && sortedLe (b :: rest)

theorem sortedLe_insortLe (x : Bytes) :
    ∀ l, sortedLe l = true → sortedLe (insortLe x l) = true := by
  intro l
  induction l with
  | nil => intro _; rfl
  | cons a l2 ih =>
    intro hs
    by_cases hxa : lexLe x a = true
    · rw [show insortLe x (a :: l2) = x :: a :: l2 from by simp [insortLe, hxa]]
      simp [sortedLe, hxa, hs]
    · have hax : lexLe a x = true := (lexLe_total x a).resolve_left hxa
      rw [show insortLe x (a :: l2) = a :: insortLe x l2 from by simp [insortLe, hxa]]
      cases l2 with
      | nil => simp [insortLe, sortedLe, hax]
      | cons b l3 =>
        have hs2 : lexLe a b = true ∧ sortedLe (b :: l3) = true := by
          simpa [sortedLe] using hs
        by_cases hxb : lexLe x b = true
        · rw [show insortLe x (b :: l3) = x :: b :: l3 from by simp [insortLe, hxb]]
          simp [sortedLe, hax, hxb, hs2.2]
        · have h1 : sortedLe (insortLe x (b :: l3)) = true := ih hs2.2
          rw [show insortLe x (b :: l3) = b :: insortLe x l3 from by simp [insortLe, hxb]] at h1
          rw [show insortLe x (b :: l3) = b :: insortLe x l3 from by simp [insortLe, hxb]]
          simp [sortedLe, hs2.1]
          exact h1

theorem sortedLe_sortKeys : ∀ l, sortedLe (sortKeys l) = true := by
  intro l
  induction l with
  | nil => rfl
  | cons x xs ih => exact sortedLe_insortLe x (sortKeys xs) ih

/-- Number of occurrences of a key in a key list. -/
def countKey (a : Bytes) : List Bytes → Nat
  | [] => 0
  | x :: xs => (if x = a then 1 else 0) + countKey a xs

theorem countKey_append (a : Bytes) :
    ∀ l1 l2, countKey a (l1 ++ l2) = countKey a l1 + countKey a l2 := by
  intro l1 l2
  induction l1 with
  | nil => simp [countKey]
  | cons x xs ih => simp [countKey, ih]; omega

theorem countKey_insortLe (a x : Bytes) :
    ∀ l, countKey a (insortLe x l) = countKey a (x :: l) := by
  intro l
  induction l with
  | nil => rfl
  | cons y ys ih =>
    by_cases h : lexLe x y = true
    · simp [insortLe, h]
    · rw [show insortLe x (y :: ys) = y :: insortLe x ys from by simp [insortLe, h]]
      simp [countKey, ih]
      omega

theorem countKey_sortKeys (a : Bytes) : ∀ l, countKey a (sortKeys l) = countKey a l := by
  intro l
  induction l with
  | nil => rfl
  | cons x xs ih =>
    rw [sortKeys, countKey_insortLe, countKey, countKey, ih]

theorem countKey_pos_iff (a : Bytes) : ∀ l, 0 < countKey a l ↔ a ∈ l := by
  intro l
  induction l with
  | nil => simp [countKey]
  | cons x xs ih =>
    by_cases h : x = a
    · subst h
      simp [countKey]
    · simp [countKey, h, ih, Ne.symm h]

theorem mem_sortKeys (a : Bytes) (l : List Bytes) : a ∈ sortKeys l ↔ a ∈ l := by
  rw [← countKey_pos_iff, ← countKey_pos_iff, countKey_sortKeys]

theorem countKey_of_nodup (a : Bytes) :
    ∀ l : List Bytes, l.Nodup → countKey a l = if a ∈ l then 1 else 0 := by
  intro l
  induction l with
  | nil => intro _; simp [countKey]
  | cons x xs ih =>
    intro hnd
    rw [List.nodup_cons] at hnd
    by_cases h : x = a
    · subst h
      have hna : x ∉ xs := hnd.1
      rw [countKey, ih hnd.2, if_neg hna, if_pos (List.mem_cons_self _ _)]
      simp
    · rw [countKey, if_neg h, ih hnd.2]
      by_cases hm : a ∈ xs
      · rw [if_pos hm, if_pos (List.mem_cons_of_mem _ hm)]
      · rw [if_neg hm, if_neg (by simp [hm, Ne.symm h])]

/-! ### Search lemmas -/

/-- First entry among the first `n` of a table whose key matches.  This is
the entry the SearchSSTFile scan stops at. -/
def findEntry (key : Bytes) : Nat → List SSTEntry → Option SSTEntry
  | 0, _ => none
  | _ + 1, [] => none
  | n + 1, e :: rest => if e.key = key then some e else findEntry key n rest

/-- The result SearchSSTFile reports for the matching entry it stops at. -/
def entryResult (e : SSTEntry) : Option Bytes × Bool :=
  if e.marker = 1 then (some DELETEDSentinel, true) else (some e.value, true)

theorem searchN_eq_findEntry (key : Bytes) :
    ∀ (n : Nat) (l : List SSTEntry),
      searchN key n l =
        match findEntry key n l with
        | none => (none, false)
        | some e => entryResult e := by
  intro n
  induction n with
  | zero => intro l; rfl
  | succ m ih =>
    intro l
    cases l with
    | nil => rfl
    | cons e rest =>
      by_cases h : e.key = key
      · simp [searchN, findEntry, h, entryResult]
      · simp [searchN, findEntry, h, ih]

theorem SearchSSTFile_eq_findEntry (key : Bytes) (f : SSTFile) :
    SearchSSTFile key f =
      match findEntry key f.entryCount f.entries with
      | none => (none, false)
      | some e => entryResult e :=
  searchN_eq_findEntry key f.entryCount f.entries

theorem findEntry_map_of_mem (key : Bytes) (f : Bytes → SSTEntry)
    (hf : ∀ k, (f k).key = k) :
    ∀ keys : List Bytes, key ∈ keys →
      findEntry key (keys.map f).length (keys.map f) = some (f key) := by
  intro keys
  induction keys with
  | nil => intro h; simp at h
  | cons a rest ih =>
    intro h
    by_cases ha : a = key
    · subst ha
      simp [findEntry, hf]
    · have hmem : key ∈ rest := by
        rcases List.mem_cons.mp h with h1 | h1
        · exact absurd h1.symm ha
        · exact h1
      simp [findEntry, hf, ha]
      simpa using ih hmem

theorem SearchSSTFile_WriteSSTable (kv : KeyValueStore) (key : Bytes)
    (h : key ∈ flushKeys kv) :
    SearchSSTFile key (WriteSSTable kv) = entryResult (mkEntry kv key) := by
  rw [SearchSSTFile_eq_findEntry]
  have hc : (WriteSSTable kv).entryCount = ((flushKeys kv).map (mkEntry kv)).length := by
    simp [WriteSSTable]
  have he : (WriteSSTable kv).entries = (flushKeys kv).map (mkEntry kv) := rfl
  rw [hc, he, findEntry_map_of_mem key (mkEntry kv) (fun _ => rfl) (flushKeys kv) h]

theorem SearchSSTFiles_cons_found (key : Bytes) (f : SSTFile) (rest : List SSTFile)
    (v : Option Bytes) (h : SearchSSTFile key f = (v, true)) :
    SearchSSTFiles key (f :: rest) = (v, true) := by
  simp [SearchSSTFiles, h]

theorem SearchSSTFiles_none (key : Bytes) :
    ∀ fs : List SSTFile, (∀ f ∈ fs, findEntry key f.entryCount f.entries = none) →
      SearchSSTFiles key fs = (none, false) := by
  intro fs
  induction fs with
  | nil => intro _; rfl
  | cons g rest ih =>
    intro h
    have hg : SearchSSTFile key g = (none, false) := by
      rw [SearchSSTFile_eq_findEntry, h g (List.mem_cons_self _ _)]
    simp [SearchSSTFiles, hg]
    exact ih (fun f hf => h f (List.mem_cons_of_mem _ hf))

theorem SearchSSTFiles_append_none (key : Bytes) :
    ∀ (pre rest : List SSTFile),
      (∀ f ∈ pre, findEntry key f.entryCount f.entries = none) →
      SearchSSTFiles key (pre ++ rest) = SearchSSTFiles key rest := by
  intro pre
  induction pre with
  | nil => intro rest _; rfl
  | cons g pre2 ih =>
    intro rest h
    have hg : SearchSSTFile key g = (none, false) := by
      rw [SearchSSTFile_eq_findEntry, h g (List.mem_cons_self _ _)]
    rw [List.cons_append]
    simp [SearchSSTFiles, hg]
    exact ih rest (fun f hf => h f (List.mem_cons_of_mem _ hf))

end KVS

namespace KVS

/-! ### The branches of Set -/

/-- The state after the in-memory part of a normal (non-tombstoned) Set:
key-length trackers updated, record appended to the WAL, value stored. -/
def setMut (kv : KeyValueStore) (key value : Bytes) : KeyValueStore :=
  { kv with
    smallestKeyLength :=
      if kv.smallestKeyLength = 0 ∨ key.length < kv.smallestKeyLength then key.length
      else kv.smallestKeyLength
  , largestKeyLength :=
      if kv.largestKeyLength < key.length then key.length else kv.largestKeyLength
  , wal := kv.wal ++ [walSet key value]
  , data := setA kv.data key value }

theorem Set_tombstoned (kv : KeyValueStore) (key value : Bytes) (flushOK : Bool)
    (h : lookupBool kv.DeletedKeys key = true) :
    Set kv key value flushOK = { kv with DeletedKeys := setA kv.DeletedKeys key false } := by
  simp [Set, h]

theorem Set_noflush (kv : KeyValueStore) (key value : Bytes) (flushOK : Bool)
    (hT : lookupBool kv.DeletedKeys key = false)
    (hlen : (setA kv.data key value).length < 10) :
    Set kv key value flushOK = setMut kv key value := by
  simp [Set, hT, setMut, Nat.not_le.mpr hlen]

theorem Set_flush (kv : KeyValueStore) (key value : Bytes)
    (hT : lookupBool kv.DeletedKeys key = false)
    (hlen : 10 ≤ (setA kv.data key value).length) :
    Set kv key value true =
      { setMut kv key value with
        sstables := WriteSSTable (setMut kv key value) :: kv.sstables
      , data := []
      , DeletedKeys := []
      , wal := [] } := by
  simp [Set, hT, setMut, hlen]

theorem Set_flushfail (kv : KeyValueStore) (key value : Bytes)
    (hT : lookupBool kv.DeletedKeys key = false)
    (hlen : 10 ≤ (setA kv.data key value).length) :
    Set kv key value false = setMut kv key value := by
  simp [Set, hT, setMut, hlen]

/-! ### Reachability invariants -/

/-- Every entry of the tombstone map carries flag false. -/
def allTombsFalse (kv : KeyValueStore) : Prop := ∀ p ∈ kv.DeletedKeys, p.2 = false

theorem applyOp_inv_tombs (kv : KeyValueStore) (op : Op)
    (h : kv.sstables = [] → allTombsFalse kv) :
    (applyOp kv op).sstables = [] → allTombsFalse (applyOp kv op) := by
  cases op with
  | put key value =>
    show (Set kv key value true).sstables = [] → allTombsFalse (Set kv key value true)
    by_cases hT : lookupBool kv.DeletedKeys key = true
    · rw [Set_tombstoned kv key value true hT]
      intro h0
      exact all_false_setA (h h0) key
    · rw [Bool.not_eq_true] at hT
      by_cases hlen : 10 ≤ (setA kv.data key value).length
      · rw [Set_flush kv key value hT hlen]
        intro h0
        simp at h0
      · rw [Set_noflush kv key value true hT (Nat.lt_of_not_le hlen)]
        intro h0
        exact h h0
  | del key =>
    show ((Delete kv key).2).sstables = [] → allTombsFalse (Delete kv key).2
    cases hl : lookupA kv.data key with
    | some v =>
      simp only [Delete, hl]
      exact h
    | none =>
      cases hg : Get kv key with
      | mk v b =>
        cases b with
        | false =>
          simp only [Delete, hl, hg]
          exact h
        | true =>
          simp only [Delete, hl, hg]
          intro h0
          exfalso
          have hA := h h0
          have hT : lookupBool kv.DeletedKeys key = false := lookupBool_all_false hA key
          rw [Get, hT] at hg
          simp only [Bool.false_eq_true, if_false, hl] at hg
          rw [h0] at hg
          simp [SearchSSTFiles] at hg

theorem foldl_inv_tombs : ∀ (ops : List Op) (kv : KeyValueStore),
    (kv.sstables = [] → allTombsFalse kv) →
    ((ops.foldl applyOp kv).sstables = [] → allTombsFalse (ops.foldl applyOp kv)) := by
  intro ops
  induction ops with
  | nil => intro kv h; exact h
  | cons op rest ih => intro kv h; exact ih (applyOp kv op) (applyOp_inv_tombs kv op h)

/-- A store in which no flush has ever occurred (no on-disk table exists)
has no tombstone flag set: before the first flush, Delete can only ever
remove live entries, never mark tombstones. -/
theorem runOps_tombs (ops : List Op) (h : (runOps ops).sstables = []) :
    allTombsFalse (runOps ops) :=
  foldl_inv_tombs ops initStore (fun _ p hp => absurd hp (List.not_mem_nil p)) h

/-- Keys are unique within each of the two in-memory maps. -/
def nodupKeys (kv : KeyValueStore) : Prop :=
  (kv.data.map Prod.fst).Nodup ∧ (kv.DeletedKeys.map Prod.fst).Nodup

theorem applyOp_nodupKeys (kv : KeyValueStore) (op : Op) (h : nodupKeys kv) :
    nodupKeys (applyOp kv op) := by
  cases op with
  | put key value =>
    show nodupKeys (Set kv key value true)
    by_cases hT : lookupBool kv.DeletedKeys key = true
    · rw [Set_tombstoned kv key value true hT]
      exact ⟨h.1, nodup_keys_setA h.2 key false⟩
    · rw [Bool.not_eq_true] at hT
      by_cases hlen : 10 ≤ (setA kv.data key value).length
      · rw [Set_flush kv key value hT hlen]
        exact ⟨List.nodup_nil, List.nodup_nil⟩
      · rw [Set_noflush kv key value true hT (Nat.lt_of_not_le hlen)]
        exact ⟨nodup_keys_setA h.1 key value, h.2⟩
  | del key =>
    show nodupKeys (Delete kv key).2
    cases hl : lookupA kv.data key with
    | some v =>
      simp only [Delete, hl]
      exact ⟨nodup_keys_eraseA h.1 key, h.2⟩
    | none =>
      cases hg : Get kv key with
      | mk v b =>
        cases b with
        | false =>
          simp only [Delete, hl, hg]
          exact h
        | true =>
          simp only [Delete, hl, hg]
          exact ⟨h.1, nodup_keys_setA h.2 key true⟩

theorem runOps_nodupKeys (ops : List Op) : nodupKeys (runOps ops) := by
  have hfold : ∀ (l : List Op) (kv : KeyValueStore),
      nodupKeys kv → nodupKeys (l.foldl applyOp kv) := by
    intro l
    induction l with
    | nil => intro kv h; exact h
    | cons op rest ih => intro kv h; exact ih _ (applyOp_nodupKeys kv op h)
  exact hfold ops initStore ⟨List.nodup_nil, List.nodup_nil⟩

end KVS

namespace KVS

/-! ### Sequences of Sets (flush threshold) -/

/-- Run a sequence of Put calls on given key/value pairs (flushes taken as
succeeding). -/
def runSets (kv : KeyValueStore) (kvs : List (Bytes × Bytes)) : KeyValueStore :=
  kvs.foldl (fun s p => Set s p.1 p.2 true) kv

theorem runSets_below :
    ∀ (kvs : List (Bytes × Bytes)) (kv : KeyValueStore),
      (∀ p ∈ kvs, lookupBool kv.DeletedKeys p.1 = false) →
      (∀ p ∈ kvs, lookupA kv.data p.1 = none) →
      (kvs.map Prod.fst).Nodup →
      kv.data.length + kvs.length ≤ 9 →
      (runSets kv kvs).data.length = kv.data.length + kvs.length ∧
      (runSets kv kvs).DeletedKeys = kv.DeletedKeys ∧
      (runSets kv kvs).sstables = kv.sstables ∧
      (∀ q, q ∉ kvs.map Prod.fst →
        lookupA (runSets kv kvs).data q = lookupA kv.data q) := by
  intro kvs
  induction kvs with
  | nil =>
    intro kv _ _ _ _
    exact ⟨by simp [runSets], rfl, rfl, fun q _ => rfl⟩
  | cons p rest ih =>
    intro kv hB hD hnd hlen
    have hT : lookupBool kv.DeletedKeys p.1 = false := hB p (List.mem_cons_self _ _)
    have hN : lookupA kv.data p.1 = none := hD p (List.mem_cons_self _ _)
    have hlen1 : (setA kv.data p.1 p.2).length = kv.data.length + 1 :=
      length_setA_of_none kv.data p.1 p.2 hN
    have hsmall : (setA kv.data p.1 p.2).length < 10 := by
      rw [hlen1]
      simp [List.length_cons] at hlen
      omega
    have hstep : Set kv p.1 p.2 true = setMut kv p.1 p.2 :=
      Set_noflush kv p.1 p.2 true hT hsmall
    have hrun : runSets kv (p :: rest) = runSets (setMut kv p.1 p.2) rest := by
      rw [runSets, List.foldl_cons, hstep]
      rfl
    rw [List.map_cons, List.nodup_cons] at hnd
    have hfresh : ∀ q ∈ rest, q.1 ≠ p.1 := by
      intro q hq heq
      exact hnd.1 (heq ▸ List.mem_map_of_mem Prod.fst hq)
    obtain ⟨ihL, ihDel, ihS, ihF⟩ := ih (setMut kv p.1 p.2)
      (fun q hq => hB q (List.mem_cons_of_mem _ hq))
      (fun q hq => by
        show lookupA (setA kv.data p.1 p.2) q.1 = none
        rw [lookupA_setA_ne kv.data p.1 q.1 p.2 (hfresh q hq)]
        exact hD q (List.mem_cons_of_mem _ hq))
      hnd.2
      (by
        show (setA kv.data p.1 p.2).length + rest.length ≤ 9
        rw [hlen1]
        simp [List.length_cons] at hlen
        omega)
    refine ⟨?_, ?_, ?_, ?_⟩
    · rw [hrun, ihL]
      show (setA kv.data p.1 p.2).length + rest.length = kv.data.length + (rest.length + 1)
      rw [hlen1]
      omega
    · rw [hrun, ihDel]
      rfl
    · rw [hrun, ihS]
      rfl
    · intro q hq
      rw [List.map_cons] at hq
      have hq1 : q ≠ p.1 := fun heq => hq (heq ▸ List.mem_cons_self _ _)
      have hq2 : q ∉ rest.map Prod.fst := fun hmem => hq (List.mem_cons_of_mem _ hmem)
      rw [hrun, ihF q hq2]
      show lookupA (setA kv.data p.1 p.2) q = lookupA kv.data q
      exact lookupA_setA_ne kv.data p.1 q p.2 hq1

end KVS

namespace KVS

/-! ### Instruction-order traces of Set and Delete

To state the WAL-before-mutation ordering contract, each operation is
rendered as the sequence of state-changing steps it performs, in source
order.  `applyEvent` gives each step its meaning; the faithfulness
lemmas below prove that folding a trace reproduces exactly the operation
it was derived from. -/

inductive MemEvent : Type
  | updateKeyLens (key : Bytes) : MemEvent
  | walAppend (r : WalRecord) : MemEvent
  | setData (key value : Bytes) : MemEvent
  | eraseData (key : Bytes) : MemEvent
  | setTombstone (key : Bytes) (flag : Bool) : MemEvent
  | flushTable : MemEvent
deriving DecidableEq

def applyEvent (kv : KeyValueStore) : MemEvent → KeyValueStore
  | MemEvent.updateKeyLens k =>
    { kv with
      smallestKeyLength :=
        if kv.smallestKeyLength = 0 ∨ k.length < kv.smallestKeyLength then k.length
        else kv.smallestKeyLength
    , largestKeyLength :=
        if kv.largestKeyLength < k.length then k.length else kv.largestKeyLength }
  | MemEvent.walAppend r => { kv with wal := kv.wal ++ [r] }
  | MemEvent.setData k v => { kv with data := setA kv.data k v }
  | MemEvent.eraseData k => { kv with data := eraseA kv.data k }
  | MemEvent.setTombstone k b => { kv with DeletedKeys := setA kv.DeletedKeys k b }
  | MemEvent.flushTable =>
    { kv with sstables := WriteSSTable kv :: kv.sstables
            , data := []
            , DeletedKeys := []
            , wal := [] }

/-- The steps Set performs, in source order. -/
def setTrace (kv : KeyValueStore) (key value : Bytes) (flushOK : Bool) : List MemEvent :=
  if lookupBool kv.DeletedKeys key then [MemEvent.setTombstone key false]
  else
    [MemEvent.updateKeyLens key,
     MemEvent.walAppend (walSet key value),
     MemEvent.setData key value] ++
    (if 10 ≤ (setA kv.data key value).length then
       (if flushOK then [MemEvent.flushTable] else [])
     else [])

/-- The steps Delete performs, in source order. -/
def deleteTrace (kv : KeyValueStore) (key : Bytes) : List MemEvent :=
  match lookupA kv.data key with
  | some v => [MemEvent.walAppend (walDelete key v), MemEvent.eraseData key]
  | none =>
    match Get kv key with
    | (v, true) => [MemEvent.walAppend (walDelete key (v.getD [])),
                    MemEvent.setTombstone key true]
    | (_, false) => []

/-- Steps that mutate the live mapping or the tombstone map. -/
def isMemMutation : MemEvent → Bool
  | MemEvent.setData _ _ => true
  | MemEvent.eraseData _ => true
  | MemEvent.setTombstone _ _ => true
  | _ => false

def walPrecedesAux : Bool → List MemEvent → Bool
  | _, [] => true
  | seen, e :: rest =>
    match e with
    | MemEvent.walAppend _ => walPrecedesAux true rest
    | _ => (!isMemMutation e || seen) && walPrecedesAux seen rest

/-- Every mutation of the live mapping or the tombstone map in the trace
is preceded by some WAL append. -/
def walPrecedesMutations (tr : List MemEvent) : Bool := walPrecedesAux false tr

theorem setTrace_faithful (kv : KeyValueStore) (key value : Bytes) (flushOK : Bool) :
    (setTrace kv key value flushOK).foldl applyEvent kv = Set kv key value flushOK := by
  by_cases hT : lookupBool kv.DeletedKeys key = true
  · simp [setTrace, Set, hT, applyEvent]
  · rw [Bool.not_eq_true] at hT
    by_cases hlen : 10 ≤ (setA kv.data key value).length
    · cases flushOK with
      | true =>
        rw [Set_flush kv key value hT hlen]
        simp only [setTrace, hT, Bool.false_eq_true, if_false, hlen, if_true]
        rfl
      | false =>
        rw [Set_flushfail kv key value hT hlen]
        simp only [setTrace, hT, Bool.false_eq_true, if_false, hlen, if_true]
        rfl
    · rw [Set_noflush kv key value flushOK hT (Nat.lt_of_not_le hlen)]
      simp only [setTrace, hT, Bool.false_eq_true, if_false, hlen]
      rfl

theorem deleteTrace_faithful (kv : KeyValueStore) (key : Bytes) :
    (deleteTrace kv key).foldl applyEvent kv = (Delete kv key).2 := by
  cases hl : lookupA kv.data key with
  | some v =>
    simp only [deleteTrace, Delete, hl]
    rfl
  | none =>
    cases hg : Get kv key with
    | mk v b =>
      cases b with
      | true =>
        simp only [deleteTrace, Delete, hl, hg]
        rfl
      | false =>
        simp only [deleteTrace, Delete, hl, hg]
        rfl

end KVS

namespace KVS

/-! ### Concrete reachable scenarios -/

def tombKey : Bytes := [50]

/-- Put tombKey plus nine fillers (triggers the first flush), delete
tombKey (found in the first table, so it is tombstoned), then ten fresh
puts (the second flush writes the tombstone entry to disk). -/
def c1Ops : List Op :=
  [Op.put tombKey [1]] ++ (List.range 9).map (fun i => Op.put [60 + i] [0])
  ++ [Op.del tombKey] ++ (List.range 10).map (fun i => Op.put [80 + i] [0])

/-- Put tombKey plus nine fillers (first flush), delete tombKey
(tombstoned), put tombKey twice (first clears the flag only, second
stores a value while tombKey stays a member of the tombstone map), then
nine fresh puts (second flush sees tombKey in both maps). -/
def c5Ops : List Op :=
  [Op.put tombKey [1]] ++ (List.range 9).map (fun i => Op.put [60 + i] [0])
  ++ [Op.del tombKey, Op.put tombKey [2], Op.put tombKey [3]]
  ++ (List.range 9).map (fun i => Op.put [80 + i] [0])

/-- Put tombKey plus nine fillers (first flush), delete tombKey: leaves
tombKey tombstoned in memory. -/
def c6Ops : List Op :=
  [Op.put tombKey [1]] ++ (List.range 9).map (fun i => Op.put [60 + i] [0])
  ++ [Op.del tombKey]

/-! ### C1 -/

/-- Claim C1, counterexample.  After Put(tombKey,[1]), a flush, Delete(tombKey)
and a second flush, the newest table marks tombKey as a tombstone, yet
Get returns the sentinel value "DELETED" with found = true, not
(_, false) as the claim states. -/
theorem C1_counterexample :
    Get (runOps c1Ops) tombKey = (some DELETEDSentinel, true) := by decide

/-- Claim C1, amended.  For every key absent from the live mapping and not
tombstoned in memory, if the newest on-disk table containing the key
(all strictly newer tables lack it) marks it as a tombstone, then Get
returns the sentinel byte string "DELETED" with found = true — not
not-found — and the search stops at that table: the result is the same
for every list of older tables. -/
theorem C1_tombstone_sentinel_stops (kv : KeyValueStore) (key : Bytes)
    (pre post : List SSTFile) (t : SSTFile) (e : SSTEntry)
    (hdata : lookupA kv.data key = none)
    (htomb : lookupBool kv.DeletedKeys key = false)
    (hsst : kv.sstables = pre ++ t :: post)
    (hpre : ∀ f ∈ pre, findEntry key f.entryCount f.entries = none)
    (hfind : findEntry key t.entryCount t.entries = some e)
    (hmark : e.marker = 1) :
    Get kv key = (some DELETEDSentinel, true) := by
  have h1 : Get kv key = SearchSSTFiles key kv.sstables := by
    simp [Get, htomb, hdata]
  rw [h1, hsst, SearchSSTFiles_append_none key pre (t :: post) hpre]
  have ht : SearchSSTFile key t = (some DELETEDSentinel, true) := by
    rw [SearchSSTFile_eq_findEntry, hfind]
    simp [entryResult, hmark]
  exact SearchSSTFiles_cons_found key t post (some DELETEDSentinel) ht

def c1NewTable : SSTFile := ⟨1, 1, 1, [⟨1, [5], []⟩]⟩

def c1OldTable : SSTFile := ⟨1, 1, 1, [⟨0, [5], [42]⟩]⟩

def c1WitStore : KeyValueStore := { initStore with sstables := [c1NewTable, c1OldTable] }

theorem C1_witness : Get c1WitStore [5] = (some DELETEDSentinel, true) :=
  C1_tombstone_sentinel_stops c1WitStore [5] [] [c1OldTable] c1NewTable ⟨1, [5], []⟩
    rfl rfl rfl (fun f hf => absurd hf (List.not_mem_nil f)) rfl rfl

/-! ### C2 -/

/-- Claim C2.  On any reachable store in which no flush has ever occurred (no
on-disk table exists), Set(k,v) followed by Get(k) returns (v, true) —
whatever the key and value byte sequences, and even if this very Set
reaches the threshold and flushes (the freshly written table then serves
the value). -/
theorem C2_roundtrip_before_flush (ops : List Op) (key value : Bytes) (flushOK : Bool)
    (h : (runOps ops).sstables = []) :
    Get (Set (runOps ops) key value flushOK) key = (some value, true) := by
  have hA : allTombsFalse (runOps ops) := runOps_tombs ops h
  have hT : lookupBool (runOps ops).DeletedKeys key = false := lookupBool_all_false hA key
  by_cases hlen : 10 ≤ (setA (runOps ops).data key value).length
  · cases flushOK with
    | false =>
      rw [Set_flushfail _ key value hT hlen]
      simp [Get, setMut, hT, lookupA_setA_self]
    | true =>
      rw [Set_flush _ key value hT hlen]
      have hmem : key ∈ flushKeys (setMut (runOps ops) key value) := by
        rw [flushKeys, mem_sortKeys]
        apply List.mem_append_left
        apply mem_keys_of_lookupA (v := value)
        show lookupA (setA (runOps ops).data key value) key = some value
        exact lookupA_setA_self _ _ _
      have hsf : SearchSSTFile key (WriteSSTable (setMut (runOps ops) key value)) =
          entryResult (mkEntry (setMut (runOps ops) key value) key) :=
        SearchSSTFile_WriteSSTable _ key hmem
      have hm : lookupBool (setMut (runOps ops) key value).DeletedKeys key = false := hT
      have hv : lookupA (setMut (runOps ops) key value).data key = some value :=
        lookupA_setA_self _ _ _
      have hres : entryResult (mkEntry (setMut (runOps ops) key value) key) =
          (some value, true) := by
        simp [entryResult, mkEntry, hm, hv]
      have h2 : Get { setMut (runOps ops) key value with
            sstables := WriteSSTable (setMut (runOps ops) key value) :: (runOps ops).sstables
          , data := [], DeletedKeys := [], wal := [] } key =
          SearchSSTFiles key
            (WriteSSTable (setMut (runOps ops) key value) :: (runOps ops).sstables) := by
        simp [Get, lookupBool, lookupA]
      rw [h2, h]
      exact SearchSSTFiles_cons_found key _ [] (some value) (hsf.trans hres)
  · rw [Set_noflush _ key value flushOK hT (Nat.lt_of_not_le hlen)]
    have hv : lookupA (setMut (runOps ops) key value).data key = some value :=
      lookupA_setA_self _ _ _
    simp [Get, setMut, hT] at hv ⊢
    simp [hv]

theorem C2_witness :
    (runOps []).sstables = [] ∧ Get (Set (runOps []) [0] [1] true) [0] = (some [1], true) :=
  ⟨rfl, C2_roundtrip_before_flush [] [0] [1] true rfl⟩

end KVS

namespace KVS

/-! ### C3 -/

/-- Claim C3.  Set on a currently tombstoned key only clears the tombstone
flag: the resulting state is the original one with the flag of that key
set to false; in particular the live mapping is unchanged (the value is
not stored), the WAL and table set are untouched, and the key is no
longer reported tombstoned. -/
theorem C3_set_on_tombstoned (kv : KeyValueStore) (key value : Bytes) (flushOK : Bool)
    (h : lookupBool kv.DeletedKeys key = true) :
    Set kv key value flushOK = { kv with DeletedKeys := setA kv.DeletedKeys key false } ∧
    (Set kv key value flushOK).data = kv.data ∧
    (Set kv key value flushOK).wal = kv.wal ∧
    (Set kv key value flushOK).sstables = kv.sstables ∧
    lookupBool (Set kv key value flushOK).DeletedKeys key = false := by
  have h1 := Set_tombstoned kv key value flushOK h
  refine ⟨h1, by rw [h1], by rw [h1], by rw [h1], ?_⟩
  rw [h1]
  show lookupBool (setA kv.DeletedKeys key false) key = false
  rw [lookupBool, lookupA_setA_self]
  rfl

def c3Store : KeyValueStore :=
  { initStore with data := [([6], [7])], DeletedKeys := [([5], true)] }

theorem C3_witness :
    Set c3Store [5] [9] true =
      { c3Store with DeletedKeys := setA c3Store.DeletedKeys [5] false } ∧
    (Set c3Store [5] [9] true).data = c3Store.data ∧
    (Set c3Store [5] [9] true).wal = c3Store.wal ∧
    (Set c3Store [5] [9] true).sstables = c3Store.sstables ∧
    lookupBool (Set c3Store [5] [9] true).DeletedKeys [5] = false :=
  C3_set_on_tombstoned c3Store [5] [9] true (by decide)

/-! ### C4 -/

theorem runSets_ten (kv0 : KeyValueStore) (kvs : List (Bytes × Bytes))
    (hd : kv0.data = []) (hdel : kv0.DeletedKeys = [])
    (hlen : kvs.length = 10) (hnd : (kvs.map Prod.fst).Nodup) :
    (runSets kv0 kvs).sstables.length = kv0.sstables.length + 1 ∧
    (runSets kv0 kvs).data = [] ∧
    (runSets kv0 kvs).DeletedKeys = [] ∧
    (runSets kv0 kvs).wal = [] := by
  rcases List.eq_nil_or_concat kvs with rfl | ⟨init, p, rfl⟩
  · simp at hlen
  · rw [List.concat_eq_append] at hlen hnd ⊢
    have h9 : init.length = 9 := by
      simp at hlen
      omega
    rw [List.map_append, List.nodup_append] at hnd
    obtain ⟨ihL, ihDel, ihS, ihF⟩ := runSets_below init kv0
      (fun q _ => by rw [hdel]; rfl)
      (fun q _ => by rw [hd]; rfl)
      hnd.1
      (by rw [hd]; simp [h9])
    have hrun : runSets kv0 (init ++ [p]) = Set (runSets kv0 init) p.1 p.2 true := by
      rw [runSets, List.foldl_append]
      rfl
    have hfresh : p.1 ∉ init.map Prod.fst := fun hmem =>
      hnd.2.2 hmem (by simp)
    have hNp : lookupA (runSets kv0 init).data p.1 = none := by
      rw [ihF p.1 hfresh, hd]
      rfl
    have hTp : lookupBool (runSets kv0 init).DeletedKeys p.1 = false := by
      rw [ihDel, hdel]
      rfl
    have hlen10 : 10 ≤ (setA (runSets kv0 init).data p.1 p.2).length := by
      rw [length_setA_of_none _ _ _ hNp, ihL, hd, h9]
      simp
    rw [hrun, Set_flush _ p.1 p.2 hTp hlen10]
    refine ⟨?_, rfl, rfl, rfl⟩
    show (WriteSSTable (setMut (runSets kv0 init) p.1 p.2) ::
      (runSets kv0 init).sstables).length = kv0.sstables.length + 1
    rw [List.length_cons, ihS]

theorem runSets_nine (kv0 : KeyValueStore) (kvs : List (Bytes × Bytes))
    (hd : kv0.data = [])
    (hB : ∀ p ∈ kvs, lookupBool kv0.DeletedKeys p.1 = false)
    (hlen : kvs.length = 9) (hnd : (kvs.map Prod.fst).Nodup) :
    (runSets kv0 kvs).sstables = kv0.sstables ∧
    (runSets kv0 kvs).data.length = 9 ∧
    (runSets kv0 kvs).DeletedKeys = kv0.DeletedKeys := by
  obtain ⟨ihL, ihDel, ihS, _⟩ := runSets_below kvs kv0 hB
    (fun q _ => by rw [hd]; rfl) hnd (by rw [hd]; simp [hlen])
  refine ⟨ihS, ?_, ihDel⟩
  rw [ihL, hd, hlen]
  rfl

/-- Claim C4.  First part: from an empty memtable with no tombstones, running
Set on exactly 10 pairs with distinct keys adds exactly one table file,
and afterwards the live mapping and tombstone map are empty and the WAL
is truncated to empty.  Second part: tombstoned keys do not count toward
the threshold — with arbitrarily many tombstone-map entries present,
9 distinct fresh inserts trigger no flush. -/
theorem C4_flush_threshold :
    (∀ (kv0 : KeyValueStore) (kvs : List (Bytes × Bytes)),
      kv0.data = [] → kv0.DeletedKeys = [] →
      kvs.length = 10 → (kvs.map Prod.fst).Nodup →
      (runSets kv0 kvs).sstables.length = kv0.sstables.length + 1 ∧
      (runSets kv0 kvs).data = [] ∧
      (runSets kv0 kvs).DeletedKeys = [] ∧
      (runSets kv0 kvs).wal = []) ∧
    (∀ (kv0 : KeyValueStore) (kvs : List (Bytes × Bytes)),
      kv0.data = [] →
      (∀ p ∈ kvs, lookupBool kv0.DeletedKeys p.1 = false) →
      kvs.length = 9 → (kvs.map Prod.fst).Nodup →
      (runSets kv0 kvs).sstables = kv0.sstables ∧
      (runSets kv0 kvs).data.length = 9 ∧
      (runSets kv0 kvs).DeletedKeys = kv0.DeletedKeys) :=
  ⟨runSets_ten, runSets_nine⟩

def c4TenPairs : List (Bytes × Bytes) := (List.range 10).map (fun i => ([i], ([] : Bytes)))

def c4TombStore : KeyValueStore :=
  { initStore with DeletedKeys := [([90], true), ([91], true)] }

def c4NinePairs : List (Bytes × Bytes) := (List.range 9).map (fun i => ([i], ([] : Bytes)))

theorem C4_witness :
    ((runSets initStore c4TenPairs).sstables.length = initStore.sstables.length + 1 ∧
     (runSets initStore c4TenPairs).data = [] ∧
     (runSets initStore c4TenPairs).DeletedKeys = [] ∧
     (runSets initStore c4TenPairs).wal = []) ∧
    ((runSets c4TombStore c4NinePairs).sstables = c4TombStore.sstables ∧
     (runSets c4TombStore c4NinePairs).data.length = 9 ∧
     (runSets c4TombStore c4NinePairs).DeletedKeys = c4TombStore.DeletedKeys) :=
  ⟨C4_flush_threshold.1 initStore c4TenPairs rfl rfl (by decide) (by decide),
   C4_flush_threshold.2 c4TombStore c4NinePairs rfl (by decide) (by decide) (by decide)⟩

/-! ### C5 -/

/-- Claim C5, counterexample.  In the reachable state built by c5Ops, tombKey
is both in the live mapping and a member of the tombstone map when the
second flush happens, and the newest flushed table then contains an
entry for tombKey twice — contradicting "each key appearing at most once
in the file". -/
theorem C5_counterexample :
    countKey tombKey
      (((runOps c5Ops).sstables.headD ⟨0, 0, 0, []⟩).entries.map SSTEntry.key) = 2 := by
  decide

/-- Claim C5, amended.  A flush-produced table of a reachable state lists its
keys in ascending (non-strict) lexicographic order, and a key occurs
once for each of the two maps that contain it: once when in exactly one
of the live mapping and the tombstone map, twice when in both (possible
because Set on a formerly tombstoned key leaves it a member of the
tombstone map), and not at all otherwise. -/
theorem C5_flush_key_layout (ops : List Op) (k : Bytes) :
    sortedLe ((WriteSSTable (runOps ops)).entries.map SSTEntry.key) = true ∧
    countKey k ((WriteSSTable (runOps ops)).entries.map SSTEntry.key) =
      (if containsKey (runOps ops).data k then 1 else 0) +
      (if containsKey (runOps ops).DeletedKeys k then 1 else 0) := by
  have hkeys : (WriteSSTable (runOps ops)).entries.map SSTEntry.key = flushKeys (runOps ops) := by
    show ((flushKeys (runOps ops)).map (mkEntry (runOps ops))).map SSTEntry.key =
      flushKeys (runOps ops)
    rw [List.map_map]
    have hcomp : SSTEntry.key ∘ mkEntry (runOps ops) = id := funext (fun _ => rfl)
    rw [hcomp, List.map_id]
  constructor
  · rw [hkeys]
    exact sortedLe_sortKeys _
  · rw [hkeys, flushKeys, countKey_sortKeys, countKey_append]
    obtain ⟨hnd1, hnd2⟩ := runOps_nodupKeys ops
    rw [countKey_of_nodup k _ hnd1, countKey_of_nodup k _ hnd2]
    have c1 : containsKey (runOps ops).data k = true ↔
        k ∈ (runOps ops).data.map Prod.fst := containsKey_eq_mem_keys _ k
    have c2 : containsKey (runOps ops).DeletedKeys k = true ↔
        k ∈ (runOps ops).DeletedKeys.map Prod.fst := containsKey_eq_mem_keys _ k
    by_cases h1 : k ∈ (runOps ops).data.map Prod.fst <;>
    by_cases h2 : k ∈ (runOps ops).DeletedKeys.map Prod.fst <;>
    simp [h1, h2, c1, c2]

end KVS

namespace KVS

/-! ### C6 -/

/-- Claim C6, counterexample.  In the reachable state built by c6Ops the key
tombKey is tombstoned; Set on it mutates the tombstone map (clearing the
flag) as its only step, with no WAL append anywhere in the trace — so
this mutating operation is not logged before (or ever) being applied. -/
theorem C6_counterexample :
    setTrace (runOps c6Ops) tombKey [9] true = [MemEvent.setTombstone tombKey false] ∧
    walPrecedesMutations [MemEvent.setTombstone tombKey false] = false := by
  constructor
  · decide
  · decide

/-- Claim C6, amended.  In the normal (non-tombstoned) path of Set and in every
path of Delete, each mutation of the live mapping or the tombstone map is
preceded in the operation's trace by the WAL append of the operation's
record; the exception is Set on a tombstoned key, which clears the
tombstone flag with no WAL append (the counterexample). -/
theorem C6_wal_before_mutation (kv : KeyValueStore) (key value : Bytes) (flushOK : Bool) :
    (lookupBool kv.DeletedKeys key = false →
      walPrecedesMutations (setTrace kv key value flushOK) = true) ∧
    walPrecedesMutations (deleteTrace kv key) = true := by
  constructor
  · intro hT
    rw [setTrace]
    simp only [hT, Bool.false_eq_true, if_false]
    by_cases hlen : 10 ≤ (setA kv.data key value).length <;>
      cases flushOK <;>
      simp [hlen, walPrecedesMutations, walPrecedesAux, isMemMutation]
  · cases hl : lookupA kv.data key with
    | some v =>
      simp [deleteTrace, hl, walPrecedesMutations, walPrecedesAux, isMemMutation]
    | none =>
      cases hg : Get kv key with
      | mk v b =>
        cases b with
        | true =>
          simp [deleteTrace, hl, hg, walPrecedesMutations, walPrecedesAux, isMemMutation]
        | false =>
          simp [deleteTrace, hl, hg, walPrecedesMutations, walPrecedesAux, isMemMutation]

theorem C6_witness :
    walPrecedesMutations (setTrace initStore [0] [1] true) = true ∧
    walPrecedesMutations (deleteTrace initStore [0]) = true :=
  ⟨(C6_wal_before_mutation initStore [0] [1] true).1 rfl,
   (C6_wal_before_mutation initStore [0] [1] true).2⟩

/-! ### C7 -/

/-- Claim C7.  When the table write of a flush fails (flushOK = false on a Set
that reaches the threshold), the live mapping still holds exactly what it
held at the moment of the flush attempt (including the just-inserted
pair), the tombstone map is untouched, and the WAL still holds all its
records, ending with this operation's record: nothing is cleared or
truncated. -/
theorem C7_flush_failure_preserves_state (kv : KeyValueStore) (key value : Bytes)
    (hT : lookupBool kv.DeletedKeys key = false)
    (hlen : 10 ≤ (setA kv.data key value).length) :
    (Set kv key value false).data = setA kv.data key value ∧
    (Set kv key value false).DeletedKeys = kv.DeletedKeys ∧
    (Set kv key value false).wal = kv.wal ++ [walSet key value] := by
  rw [Set_flushfail kv key value hT hlen]
  exact ⟨rfl, rfl, rfl⟩

def c7Store : KeyValueStore :=
  { initStore with data := (List.range 9).map (fun i => ([i], ([] : Bytes))) }

theorem C7_witness :
    (Set c7Store [20] [1] false).data = setA c7Store.data [20] [1] ∧
    (Set c7Store [20] [1] false).DeletedKeys = c7Store.DeletedKeys ∧
    (Set c7Store [20] [1] false).wal = c7Store.wal ++ [walSet [20] [1]] :=
  C7_flush_failure_preserves_state c7Store [20] [1] (by decide) (by decide)

/-! ### C8 -/

theorem recover_foldl_frame :
    ∀ (rs : List WalRecord) (kv : KeyValueStore),
      (rs.foldl recoverStep kv).data = rs.foldl replayRecord kv.data ∧
      (rs.foldl recoverStep kv).DeletedKeys = kv.DeletedKeys ∧
      (rs.foldl recoverStep kv).sstables = kv.sstables ∧
      (rs.foldl recoverStep kv).wal = kv.wal := by
  intro rs
  induction rs with
  | nil => intro kv; exact ⟨rfl, rfl, rfl, rfl⟩
  | cons r rest ih =>
    intro kv
    have hstep : recoverStep kv r = { kv with data := replayRecord kv.data r } := by
      obtain ⟨op, rk, rv⟩ := r
      cases op <;> rfl
    rw [List.foldl_cons, List.foldl_cons, hstep]
    exact ih { kv with data := replayRecord kv.data r }

/-- Claim C8.  RecoverFromWAL folds the WAL records into the live mapping in
file order — a "set" record as a raw insertion, a "delete" record as a
raw removal — and leaves the tombstone map untouched; no flush happens
regardless of the size the mapping reaches (the table set is unchanged
unconditionally), and the WAL itself is not modified. -/
theorem C8_recovery_raw_replay (kv : KeyValueStore) :
    (RecoverFromWAL kv).data = kv.wal.foldl replayRecord kv.data ∧
    (RecoverFromWAL kv).DeletedKeys = kv.DeletedKeys ∧
    (RecoverFromWAL kv).sstables = kv.sstables ∧
    (RecoverFromWAL kv).wal = kv.wal ∧
    (∀ (d : List (Bytes × Bytes)) (k v : Bytes), replayRecord d (walSet k v) = setA d k v) ∧
    (∀ (d : List (Bytes × Bytes)) (k v : Bytes), replayRecord d (walDelete k v) = eraseA d k) := by
  obtain ⟨h1, h2, h3, h4⟩ := recover_foldl_frame kv.wal kv
  exact ⟨h1, h2, h3, h4, fun _ _ _ => rfl, fun _ _ _ => rfl⟩

/-! ### C9 -/

/-- Claim C9.  Delete on a key that is absent from the live mapping, not
tombstoned, and matched by no entry of any on-disk table returns
(nil, false) and leaves the state exactly as it was: no WAL record is
appended and neither in-memory map is modified. -/
theorem C9_delete_absent_noop (kv : KeyValueStore) (key : Bytes)
    (hd : lookupA kv.data key = none)
    (ht : lookupBool kv.DeletedKeys key = false)
    (hsst : ∀ f ∈ kv.sstables, findEntry key f.entryCount f.entries = none) :
    Delete kv key = ((none, false), kv) := by
  have hs : SearchSSTFiles key kv.sstables = (none, false) :=
    SearchSSTFiles_none key kv.sstables hsst
  have hg : Get kv key = (none, false) := by
    simp [Get, ht, hd, hs]
  simp [Delete, hd, hg]

def c9Table : SSTFile := ⟨1, 1, 1, [⟨0, [7], [8]⟩]⟩

def c9Store : KeyValueStore :=
  { initStore with data := [([1], [2])], DeletedKeys := [([3], false)], sstables := [c9Table] }

theorem C9_witness : Delete c9Store [9] = ((none, false), c9Store) :=
  C9_delete_absent_noop c9Store [9] (by decide) (by decide) (by decide)

/-! ### C10 -/

/-- Claim C10.  Set on a tombstoned key leaves the key a member of the
tombstone map with its flag set to false (it is not removed); and in any
state in which a key is such a member while absent from the live mapping
— as at the next flush when the key was not re-inserted — the table
WriteSSTable produces contains for that key an entry with live marker 0
and the empty value, which is what the table scan finds. -/
theorem C10_cleared_tombstone_flushes_live_empty (kv : KeyValueStore) (key value : Bytes)
    (flushOK : Bool) (h : lookupBool kv.DeletedKeys key = true) :
    containsKey (Set kv key value flushOK).DeletedKeys key = true ∧
    lookupBool (Set kv key value flushOK).DeletedKeys key = false ∧
    (∀ kv2 : KeyValueStore, lookupA kv2.data key = none →
      containsKey kv2.DeletedKeys key = true →
      lookupBool kv2.DeletedKeys key = false →
      findEntry key (WriteSSTable kv2).entryCount (WriteSSTable kv2).entries =
        some ⟨0, key, []⟩) := by
  have h1 := Set_tombstoned kv key value flushOK h
  refine ⟨?_, ?_, ?_⟩
  · rw [h1]
    show containsKey (setA kv.DeletedKeys key false) key = true
    rw [containsKey, lookupA_setA_self]
    rfl
  · rw [h1]
    show lookupBool (setA kv.DeletedKeys key false) key = false
    rw [lookupBool, lookupA_setA_self]
    rfl
  · intro kv2 hd hc hb
    have hmem : key ∈ flushKeys kv2 := by
      rw [flushKeys, mem_sortKeys]
      apply List.mem_append_right
      exact (containsKey_eq_mem_keys _ key).mp hc
    have hfind : findEntry key ((flushKeys kv2).map (mkEntry kv2)).length
        ((flushKeys kv2).map (mkEntry kv2)) = some (mkEntry kv2 key) :=
      findEntry_map_of_mem key (mkEntry kv2) (fun _ => rfl) (flushKeys kv2) hmem
    have hcount : (WriteSSTable kv2).entryCount =
        ((flushKeys kv2).map (mkEntry kv2)).length := by
      simp [WriteSSTable]
    have hentries : (WriteSSTable kv2).entries = (flushKeys kv2).map (mkEntry kv2) := rfl
    rw [hcount, hentries, hfind]
    have hmk : mkEntry kv2 key = ⟨0, key, []⟩ := by
      simp [mkEntry, hb, hd]
    rw [hmk]

def c10Store : KeyValueStore := { initStore with DeletedKeys := [([4], true)] }

def c10FlushStore : KeyValueStore := { initStore with DeletedKeys := [([4], false)] }

theorem C10_witness :
    containsKey (Set c10Store [4] [9] true).DeletedKeys [4] = true ∧
    lookupBool (Set c10Store [4] [9] true).DeletedKeys [4] = false ∧
    findEntry [4] (WriteSSTable c10FlushStore).entryCount (WriteSSTable c10FlushStore).entries =
      some ⟨0, [4], []⟩ := by
  obtain ⟨h1, h2, h3⟩ := C10_cleared_tombstone_flushes_live_empty c10Store [4] [9] true (by decide)
  exact ⟨h1, h2, h3 c10FlushStore (by decide) (by decide) (by decide)⟩

end KVS
